import Mathlib

/-!
# s2maps-gpu, the wasm fragments

A shallow embedding of `src/wasm/hash.cpp`, `src/wasm/tile.worker.cpp` and
`src/wasm/fetch.cpp`, and the properties of the specification settled on it.

Conventions of the embedding.

* `i32` is `typedef long int i32`, a signed 32-bit integer on the wasm32 target.
  A value of that type is an `Int` in the range `-2^31 ≤ x < 2^31`; `+` and `<<`
  wrap modulo `2^32` (`wrap32`), `>>` is the arithmetic shift of a signed integer
  and `^` is the bitwise exclusive or of the two's complement representations.
* The buffer `plaintext` points to is a `List Int`; an access outside of it is
  the error `HashError.outOfBounds`.
-/

namespace S2Maps

deriving instance DecidableEq for Except

/-! ## hash.cpp -/

/-- The range of `i32`. -/
def InI32 (x : Int) : Prop := -2147483648 ≤ x ∧ x < 2147483648

instance (x : Int) : Decidable (InI32 x) := by
  unfold InI32
  infer_instance

/-- Reduction of an integer to the `i32` with the same residue modulo `2^32`. -/
def wrap32 (x : Int) : Int := (x + 2147483648) % 4294967296 - 2147483648

/-- The `+` of `i32`, wrapping modulo `2^32`. -/
def add32 (a b : Int) : Int := wrap32 (a + b)

/-- The `<<` of `i32`: the low 32 bits of `a * 2^k`, read as a signed integer. -/
def shl32 (a : Int) (k : Nat) : Int := wrap32 (a * 2 ^ k)

/-- The `>>` of the signed `i32`: arithmetic shift, the sign bit is replicated. -/
def shr32 (a : Int) (k : Nat) : Int := a >>> k

/-- The `^` of `i32`: bitwise exclusive or in two's complement. -/
def xor32 (a b : Int) : Int := Int.xor a b

/-- Lines 8 to 10, the body of the `for` loop, with `e` the word `plaintext[i]`. -/
def loopBody (hash e : Int) : Int :=
  let hash := add32 hash e                    -- hash += plaintext[i];
  let hash := add32 hash (shl32 hash 10)      -- hash += (hash << 10);
  xor32 hash (shr32 hash 6)                   -- hash ^= (hash >> 6);

/-- Lines 12 to 14, the three statements after the loop. -/
def finish (hash : Int) : Int :=
  let hash := add32 hash (shl32 hash 3)       -- hash += (hash << 3);
  let hash := xor32 hash (shr32 hash 11)      -- hash ^= (hash >> 11);
  add32 hash (shl32 hash 15)                  -- hash += (hash << 15);

/-- The errors of the embedding of `hash`. -/
inductive HashError where
  /-- An access `plaintext[i]` with `i` outside of the buffer. -/
  | outOfBounds
  deriving DecidableEq, Repr

/-- The loop `for (hash = i = 0; i < plaintextLength; ++i)` of line 7, started in
the state `(i, hash)` with `remaining` iterations to go, that is
`remaining = plaintextLength - i`. Each iteration reads `plaintext[i]`. -/
def hashLoop (plaintext : List Int) : (remaining : Nat) → (i : Nat) → (hash : Int) →
    Except HashError Int
  | 0, _, hash => .ok hash
  | remaining + 1, i, hash =>
    match plaintext[i]? with
    | none => .error .outOfBounds
    | some e => hashLoop plaintext remaining (i + 1) (loopBody hash e)

/-- The function `hash` of hash.cpp. It returns `void`; its effect is on the
buffer, which the embedding returns. The loop runs `plaintextLength` times from
`i = 0` (not at all for `plaintextLength ≤ 0`), then line 16 stores the result
with `plaintext[0] = hash`. -/
def hash (plaintext : List Int) (plaintextLength : Int) : Except HashError (List Int) :=
  match hashLoop plaintext plaintextLength.toNat 0 0 with
  | .error err => .error err
  | .ok hash =>
    let hash := finish hash
    if 0 < plaintext.length then .ok (plaintext.set 0 hash) else .error .outOfBounds

/-! ### The algorithm as the specification words it (section 4.1) -/

/-- The step of the specification for one element `e`:
`h = h + e`, `h = h + (h << 10)`, `h = h ^ (h >> 6)`. -/
def specStep (h e : Int) : Int :=
  (fun h => xor32 h (shr32 h 6)) ((fun h => add32 h (shl32 h 10)) (add32 h e))

/-- The finalisation of the specification:
`h = h + (h << 3)`, `h = h ^ (h >> 11)`, `h = h + (h << 15)`. -/
def specFinal (h : Int) : Int :=
  (fun h => add32 h (shl32 h 15)) ((fun h => xor32 h (shr32 h 11)) ((fun h => add32 h (shl32 h 3)) h))

/-- The hash of a sequence of words as the specification words it: the running
value starts at 0, takes one step per element in order, and is finalised. -/
def specHash (data : List Int) : Int := specFinal (data.foldl specStep 0)

/-- The accumulator values on which the xor-shift statements are executed during
a run over the words `data` started with the accumulator `hash`: the value
`hash ^= (hash >> 6)` of line 10 is applied to in each iteration, then the value
`hash ^= (hash >> 11)` of line 13 is applied to. -/
def xorShiftInputs : (data : List Int) → (hash : Int) → List Int
  | [], hash => [add32 hash (shl32 hash 3)]
  | e :: data, hash =>
    let h1 := add32 hash e
    let h2 := add32 h1 (shl32 h1 10)
    h2 :: xorShiftInputs data (xor32 h2 (shr32 h2 6))

/-- The bits of an `i32` below the sign bit, read as a natural number, with the
bits of a negative value inverted: `x` for `x ≥ 0` and `~x = -x - 1` for `x < 0`. -/
def magnitude : Int → Nat
  | Int.ofNat m => m
  | Int.negSucc m => m

/-! ## tile.worker.cpp -/

/-- The nested `enum type` of `struct Layer`. It is a type declared inside the
struct, not a data member. -/
inductive Layer.type where
  | fill
  | line
  | line3D
  | billboard
  | text
  deriving DecidableEq, Repr

/-- The data members of `struct Layer`. -/
structure Layer where
  id : String
  source : String
  layer : String
  minzoom : Int
  maxzoom : Int
  filter : String
  layout : String
  paint : String
  deriving DecidableEq, Repr

/-- The nested `enum type` of `struct SourceType`. -/
inductive SourceType.type where
  | vector
  | raster
  | font
  | billboard
  deriving DecidableEq, Repr

/-- The data members of `struct SourceType`. -/
structure SourceType where
  path : String
  fileType : String
  sourceName : String
  deriving DecidableEq, Repr

/-- The members of `struct StylePackage`; `layers` is a `std::vector<Layer>`. -/
structure StylePackage where
  sources : SourceType
  fonts : SourceType
  billboards : SourceType
  layers : List Layer
  deriving DecidableEq, Repr

/-- The `enum Status` of `class TileWorker`, in the order of its declaration. -/
inductive Status where
  | Building
  | Busy
  | Ready
  deriving DecidableEq, Repr

/-- The private members of `class TileWorker`: `status`, and the member of type
`std::unordered_map<string, StylePackage>` of line 41, which the source leaves
without a name (here `stylePackages`, a list of key and value pairs). -/
structure TileWorker where
  status : Status
  stylePackages : List (String × StylePackage)
  deriving DecidableEq, Repr

/-- The conditions the specification (section 7) lets an operation of the worker
report. The source declares none of them; a member function that reports one is
embedded as returning `Except.error` of it. -/
inductive WorkerError where
  | FetchError
  | DuplicateResourceError
  | DanglingReferenceError
  | WorkerBusyError
  deriving DecidableEq, Repr

/-- The constructor `TileWorker () {}`: the body is empty, `status` takes its
default member initialiser `Ready` (line 40) and the map is default constructed,
that is empty. -/
def TileWorker.new : TileWorker := { status := Status.Ready, stylePackages := [] }

/-- The member function `void onMessage () {}`, the only member function of the
class: this is where a request to the worker arrives. Its body is empty: it
completes normally, reports nothing, and leaves every member as it was. -/
def TileWorker.onMessage (w : TileWorker) : Except WorkerError TileWorker := .ok w

/-- The worker after `k` messages in a row, starting from `w`. -/
def TileWorker.afterMessages : (k : Nat) → (w : TileWorker) → Except WorkerError TileWorker
  | 0, w => .ok w
  | k + 1, w =>
    match w.onMessage with
    | .error err => .error err
    | .ok w1 => TileWorker.afterMessages k w1

/-! ## fetch.cpp -/

/-- The functions of fetch.cpp that are installed as callbacks of a fetch. -/
inductive FetchCallback where
  | downloadSucceeded
  | downloadFailed
  deriving DecidableEq, Repr

/-- The fields of `emscripten_fetch_attr_t` that `requestData` assigns. A callback
field holds no function (`none`) or one of the functions of this file. -/
structure FetchAttr where
  requestMethod : String
  attributes : Nat
  onsuccess : Option FetchCallback
  onerror : Option FetchCallback
  deriving DecidableEq, Repr

/-- The calls into the emscripten fetch interface that the functions of fetch.cpp
make. A fetch in flight (`emscripten_fetch_t *`) is identified by a number. -/
inductive FetchCall where
  /-- The call `emscripten_fetch(&attr, url)`. -/
  | fetch (attr : FetchAttr) (url : String)
  /-- The call `emscripten_fetch_close(fetch)`. -/
  | close (fetch : Nat)
  deriving DecidableEq, Repr

/-- The callback `downloadSucceeded`, as the list of the interface calls it makes. -/
def downloadSucceeded (fetch : Nat) : List FetchCall :=
  [FetchCall.close fetch]                     -- emscripten_fetch_close(fetch);

/-- The callback `downloadFailed`, as the list of the interface calls it makes. -/
def downloadFailed (fetch : Nat) : List FetchCall :=
  [FetchCall.close fetch]                     -- emscripten_fetch_close(fetch);

/-- The function a callback value stands for, applied to a fetch. -/
def FetchCallback.run : FetchCallback → Nat → List FetchCall
  | .downloadSucceeded, fetch => S2Maps.downloadSucceeded fetch
  | .downloadFailed, fetch => S2Maps.downloadFailed fetch

/-- The function `requestData`, as the list of the interface calls it makes. The
header `emscripten/fetch.h` is not part of the source: `attrInit` is the value
`emscripten_fetch_attr_init` leaves in `attr`, and `EMSCRIPTEN_FETCH_LOAD_TO_MEMORY`
is the value of that constant. The argument `extension` is not used, and the
function ends without a `return` statement. -/
def requestData (attrInit : FetchAttr) (EMSCRIPTEN_FETCH_LOAD_TO_MEMORY : Nat)
    (path extension : String) : List FetchCall :=
  let _ := extension
  let attr := attrInit                                              -- emscripten_fetch_attr_init(&attr);
  let attr := { attr with requestMethod := "GET" }                  -- strcpy(attr.requestMethod, "GET");
  let attr := { attr with attributes := EMSCRIPTEN_FETCH_LOAD_TO_MEMORY }
  let attr := { attr with onsuccess := some FetchCallback.downloadSucceeded }
  let attr := { attr with onerror := some FetchCallback.downloadFailed }
  [FetchCall.fetch attr path]                                       -- emscripten_fetch(&attr, path);

/-! ## Lemmas on the arithmetic of `i32` -/

theorem wrap32_inI32 (x : Int) : InI32 (wrap32 x) := by
  unfold InI32 wrap32
  omega

theorem add32_inI32 (a b : Int) : InI32 (add32 a b) := wrap32_inI32 _

theorem wrap32_add_wrap32 (a b : Int) : wrap32 (a + wrap32 b) = wrap32 (a + b) := by
  unfold wrap32
  omega

theorem wrap32_eq_iff (x y : Int) : wrap32 x = wrap32 y ↔ (4294967296 : Int) ∣ x - y := by
  unfold wrap32
  constructor
  · intro h
    exact Int.dvd_of_emod_eq_zero (by omega)
  · intro h
    obtain ⟨c, hc⟩ := h
    omega

/-- The statement `hash += (hash << k)` multiplies by the odd number `2^k + 1`. -/
theorem add32_shl32 (a : Int) (k : Nat) : add32 a (shl32 a k) = wrap32 (a * (2 ^ k + 1)) := by
  unfold add32 shl32
  rw [wrap32_add_wrap32]
  congr 1
  ring

theorem coprime_two_pow_of_odd (c : Int) (u : Int) (hu : 2 * u + c = 1) :
    IsCoprime (4294967296 : Int) c := by
  have h2 : IsCoprime (2 : Int) c := ⟨u, 1, by linarith⟩
  have h : IsCoprime ((2 : Int) ^ 32) c := h2.pow_left
  norm_num at h
  exact h

/-- Multiplication by a number coprime to `2^32` loses nothing of an `i32`. -/
theorem mulOdd_injective (c : Int) (hc : IsCoprime (4294967296 : Int) c) (a b : Int)
    (ha : InI32 a) (hb : InI32 b) (h : wrap32 (a * c) = wrap32 (b * c)) : a = b := by
  obtain ⟨ha1, ha2⟩ := ha
  obtain ⟨hb1, hb2⟩ := hb
  rw [wrap32_eq_iff] at h
  have h2 : (4294967296 : Int) ∣ (a - b) * c := by
    have hr : (a - b) * c = a * c - b * c := by ring
    rw [hr]
    exact h
  obtain ⟨d, hd⟩ := hc.dvd_of_dvd_mul_right h2
  omega

theorem mul1025_injective (a b : Int) (ha : InI32 a) (hb : InI32 b)
    (h : add32 a (shl32 a 10) = add32 b (shl32 b 10)) : a = b := by
  rw [add32_shl32, add32_shl32] at h
  exact mulOdd_injective _ (coprime_two_pow_of_odd _ (-512) (by norm_num)) a b ha hb h

theorem mul9_injective (a b : Int) (ha : InI32 a) (hb : InI32 b)
    (h : add32 a (shl32 a 3) = add32 b (shl32 b 3)) : a = b := by
  rw [add32_shl32, add32_shl32] at h
  exact mulOdd_injective _ (coprime_two_pow_of_odd _ (-4) (by norm_num)) a b ha hb h

theorem mul32769_injective (a b : Int) (ha : InI32 a) (hb : InI32 b)
    (h : add32 a (shl32 a 15) = add32 b (shl32 b 15)) : a = b := by
  rw [add32_shl32, add32_shl32] at h
  exact mulOdd_injective _ (coprime_two_pow_of_odd _ (-16384) (by norm_num)) a b ha hb h

theorem add32_right_injective (h e e' : Int) (he : InI32 e) (he' : InI32 e')
    (heq : add32 h e = add32 h e') : e = e' := by
  obtain ⟨h1, h2⟩ := he
  obtain ⟨h3, h4⟩ := he'
  unfold add32 at heq
  rw [wrap32_eq_iff] at heq
  obtain ⟨d, hd⟩ := heq
  omega

theorem add32_left_injective (h h' e : Int) (hh : InI32 h) (hh' : InI32 h')
    (heq : add32 h e = add32 h' e) : h = h' := by
  obtain ⟨h1, h2⟩ := hh
  obtain ⟨h3, h4⟩ := hh'
  unfold add32 at heq
  rw [wrap32_eq_iff] at heq
  obtain ⟨d, hd⟩ := heq
  omega

/-- On natural numbers, where the shift brings in zeros, `n ^ (n >> k)` determines
`n`. -/
theorem nat_xorShift_injective (k : Nat) (hk : 1 ≤ k) (m n : Nat)
    (h : m ^^^ (m >>> k) = n ^^^ (n >>> k)) : m = n := by
  have hbit : ∀ i, (m ^^^ n).testBit i = ((m ^^^ n) >>> k).testBit i := by
    intro i
    have hi := congrArg (fun x => x.testBit i) h
    simp only [Nat.testBit_xor, Nat.testBit_shiftRight] at hi ⊢
    revert hi
    cases m.testBit i <;> cases n.testBit i <;> cases m.testBit (k + i) <;>
      cases n.testBit (k + i) <;> simp
  have hd : m ^^^ n = (m ^^^ n) >>> k := Nat.eq_of_testBit_eq hbit
  have hz : m ^^^ n = 0 := by
    by_contra hne
    have hpos : 0 < m ^^^ n := Nat.pos_of_ne_zero hne
    have hlt : (m ^^^ n) / 2 ^ k < m ^^^ n :=
      Nat.div_lt_self hpos (Nat.one_lt_two_pow (by omega))
    rw [Nat.shiftRight_eq_div_pow] at hd
    omega
  exact Nat.xor_eq_zero.mp hz

/-- With the arithmetic shift of a signed value, `h ^ (h >> k)` is the xor-shift of
the magnitude bits: the sign of `h` is lost. -/
theorem xorShift_eq (a : Int) (k : Nat) :
    xor32 a (shr32 a k) = ((magnitude a ^^^ (magnitude a >>> k) : Nat) : Int) := by
  cases a <;> rfl

theorem magnitude_complement (a : Int) : magnitude (-a - 1) = magnitude a := by
  cases a with
  | ofNat m =>
    have hc : -(Int.ofNat m) - 1 = Int.negSucc m := by
      simp only [Int.negSucc_eq, Int.ofNat_eq_coe]
      omega
    rw [hc]
    rfl
  | negSucc m =>
    have hc : -(Int.negSucc m) - 1 = Int.ofNat m := by
      simp only [Int.negSucc_eq, Int.ofNat_eq_coe]
      omega
    rw [hc]
    rfl

/-- The statement `hash ^= (hash >> k)` on signed values sends exactly `h` and its
bitwise complement `~h = -h - 1` to the same value. -/
theorem xorShift_eq_iff (a b : Int) (k : Nat) (hk : 1 ≤ k) :
    xor32 a (shr32 a k) = xor32 b (shr32 b k) ↔ (b = a ∨ b = -a - 1) := by
  rw [xorShift_eq, xorShift_eq]
  constructor
  · intro h
    have hm : magnitude a = magnitude b :=
      nat_xorShift_injective k hk _ _ (Int.ofNat.inj h)
    cases a <;> cases b <;> simp only [magnitude] at hm <;> subst hm
    · left; rfl
    · right; simp only [Int.negSucc_eq, Int.ofNat_eq_coe]; omega
    · right; simp only [Int.negSucc_eq, Int.ofNat_eq_coe]; omega
    · left; rfl
  · rintro (rfl | rfl)
    · rfl
    · rw [magnitude_complement]

theorem xorShift_inI32 (a : Int) (k : Nat) (ha : InI32 a) :
    InI32 (xor32 a (shr32 a k)) := by
  rw [xorShift_eq]
  have hm : magnitude a < 2 ^ 31 := by
    unfold InI32 at ha
    cases a with
    | ofNat m => simp only [magnitude, Int.ofNat_eq_coe] at ha ⊢; omega
    | negSucc m => simp only [magnitude, Int.negSucc_eq] at ha ⊢; omega
  have hs : magnitude a >>> k < 2 ^ 31 := by
    rw [Nat.shiftRight_eq_div_pow]
    exact lt_of_le_of_lt (Nat.div_le_self _ _) hm
  have hx := Nat.xor_lt_two_pow hm hs
  unfold InI32
  omega

/-! ## Lemmas on the loop of hash -/

theorem specStep_eq_loopBody (h e : Int) : specStep h e = loopBody h e := rfl

theorem specFinal_eq_finish (h : Int) : specFinal h = finish h := rfl

theorem foldl_specStep (data : List Int) (h : Int) :
    data.foldl specStep h = data.foldl loopBody h := by
  induction data generalizing h with
  | nil => rfl
  | cons e data ih => simp only [List.foldl_cons, specStep_eq_loopBody, ih]

/-- The loop, started at index `i` with `remaining` iterations that stay inside
the buffer, returns the fold of the loop body over the words it visits. -/
theorem hashLoop_eq_foldl (plaintext : List Int) (remaining i : Nat) (h : Int)
    (hb : i + remaining ≤ plaintext.length) :
    hashLoop plaintext remaining i h =
      .ok (((plaintext.drop i).take remaining).foldl loopBody h) := by
  induction remaining generalizing i h with
  | zero => simp [hashLoop]
  | succ k ih =>
    have hi : i < plaintext.length := by omega
    have hd : plaintext.drop i = plaintext[i] :: plaintext.drop (i + 1) :=
      List.drop_eq_getElem_cons hi
    rw [hashLoop, List.getElem?_eq_getElem hi]
    simp only
    rw [ih (i + 1) (loopBody h plaintext[i]) (by omega), hd, List.take_succ_cons,
      List.foldl_cons]

/-- A loop that runs past the end of the buffer ends in the out-of-bounds error. -/
theorem hashLoop_outOfBounds (plaintext : List Int) (remaining i : Nat) (h : Int)
    (hi : i ≤ plaintext.length) (hb : plaintext.length < i + remaining) :
    hashLoop plaintext remaining i h = .error .outOfBounds := by
  induction remaining generalizing i h with
  | zero => omega
  | succ k ih =>
    rw [hashLoop]
    cases hg : plaintext[i]? with
    | none => rfl
    | some e =>
      have hlt : i < plaintext.length := by
        rcases Nat.lt_or_ge i plaintext.length with hlt | hge
        · exact hlt
        · rw [List.getElem?_eq_none hge] at hg
          exact absurd hg (by simp)
      simp only
      exact ih (i + 1) _ (by omega) (by omega)

/-- The result of `hash` on a buffer of at least one word, for a length inside
the buffer. -/
theorem hash_eq_set (plaintext : List Int) (n : Int)
    (hpos : 0 < plaintext.length) (hn : n ≤ plaintext.length) :
    hash plaintext n =
      .ok (plaintext.set 0 (finish ((plaintext.take n.toNat).foldl loopBody 0))) := by
  have hb : 0 + n.toNat ≤ plaintext.length := by omega
  unfold hash
  rw [hashLoop_eq_foldl plaintext n.toNat 0 0 hb]
  simp [hpos]

/-- When `hash` returns, the buffer has at least one word, the length is inside
the buffer, and the buffer returned is the input with index 0 overwritten. -/
theorem hash_ok_inv (plaintext : List Int) (n : Int) (b : List Int)
    (h : hash plaintext n = .ok b) :
    0 < plaintext.length ∧ n ≤ plaintext.length ∧
      b = plaintext.set 0 (finish ((plaintext.take n.toNat).foldl loopBody 0)) := by
  have hn : n.toNat ≤ plaintext.length := by
    by_contra hlt
    have herr := hashLoop_outOfBounds plaintext n.toNat 0 0 (Nat.zero_le _) (by omega)
    unfold hash at h
    rw [herr] at h
    exact absurd h (by simp)
  have hpos : 0 < plaintext.length := by
    by_contra hz
    unfold hash at h
    rw [hashLoop_eq_foldl plaintext n.toNat 0 0 (by omega)] at h
    simp [hz] at h
  have hn2 : n ≤ plaintext.length := by omega
  refine ⟨hpos, hn2, ?_⟩
  rw [hash_eq_set plaintext n hpos hn2] at h
  exact (Except.ok.inj h).symm

/-! ## Lemmas on two runs of the loop -/

/-- The first xor-shift input of a run over `e :: data`, and the accumulator the
iteration leaves. -/
theorem xorShiftInputs_cons (e : Int) (data : List Int) (h : Int) :
    xorShiftInputs (e :: data) h =
      add32 (add32 h e) (shl32 (add32 h e) 10) :: xorShiftInputs data (loopBody h e) := rfl

theorem no_self_complement (p : Int) : p ≠ -p - 1 := by omega

/-- Two runs over the same words from accumulators that differ: the results are
equal exactly when at some xor-shift statement the two accumulators are bitwise
complements of one another. -/
theorem runs_eq_iff (data : List Int) : ∀ h h' : Int, InI32 h → InI32 h' → h ≠ h' →
    (finish (data.foldl loopBody h) = finish (data.foldl loopBody h') ↔
      ∃ p ∈ List.zip (xorShiftInputs data h) (xorShiftInputs data h'), p.2 = -p.1 - 1) := by
  induction data with
  | nil =>
    intro h h' hh hh' hne
    have hp : add32 h (shl32 h 3) ≠ add32 h' (shl32 h' 3) :=
      fun hc => hne (mul9_injective h h' hh hh' hc)
    simp only [List.foldl_nil, xorShiftInputs, List.zip_cons_cons, List.zip_nil_right,
      List.mem_singleton, exists_eq_left]
    constructor
    · intro hf
      have hq := mul32769_injective _ _ (xorShift_inI32 _ 11 (add32_inI32 _ _))
        (xorShift_inI32 _ 11 (add32_inI32 _ _)) hf
      rcases (xorShift_eq_iff _ _ 11 (by decide)).mp hq with hsame | hcompl
      · exact absurd hsame.symm hp
      · exact hcompl
    · intro hcompl
      have hq := (xorShift_eq_iff (add32 h (shl32 h 3)) (add32 h' (shl32 h' 3)) 11
        (by decide)).mpr (Or.inr hcompl)
      unfold finish
      simp only
      rw [hq]
  | cons e data ih =>
    intro h h' hh hh' hne
    have hp : add32 (add32 h e) (shl32 (add32 h e) 10) ≠
        add32 (add32 h' e) (shl32 (add32 h' e) 10) := fun hc =>
      hne (add32_left_injective h h' e hh hh'
        (mul1025_injective _ _ (add32_inI32 _ _) (add32_inI32 _ _) hc))
    simp only [List.foldl_cons, xorShiftInputs_cons, List.zip_cons_cons, List.mem_cons,
      exists_eq_or_imp]
    by_cases hcompl : add32 (add32 h' e) (shl32 (add32 h' e) 10) =
        -add32 (add32 h e) (shl32 (add32 h e) 10) - 1
    · have hq : loopBody h e = loopBody h' e :=
        (xorShift_eq_iff _ _ 6 (by decide)).mpr (Or.inr hcompl)
      rw [hq]
      exact ⟨fun _ => Or.inl hcompl, fun _ => rfl⟩
    · have hq : loopBody h e ≠ loopBody h' e := by
        intro hc
        rcases (xorShift_eq_iff _ _ 6 (by decide)).mp hc with hsame | hc2
        · exact hp hsame.symm
        · exact hcompl hc2
      have hi := ih (loopBody h e) (loopBody h' e) (xorShift_inI32 _ 6 (add32_inI32 _ _))
        (xorShift_inI32 _ 6 (add32_inI32 _ _)) hq
      rw [hi]
      constructor
      · exact fun hx => Or.inr hx
      · rintro (hx | hx)
        · exact absurd hx hcompl
        · exact hx

/-- Two runs from the same accumulator over words that differ in the first
position only. -/
theorem runs_differ_at_head (e e' : Int) (data : List Int) (h : Int)
    (he : InI32 e) (he' : InI32 e') (hne : e ≠ e') :
    (finish ((e :: data).foldl loopBody h) = finish ((e' :: data).foldl loopBody h) ↔
      ∃ p ∈ List.zip (xorShiftInputs (e :: data) h) (xorShiftInputs (e' :: data) h),
        p.2 = -p.1 - 1) := by
  have hp : add32 (add32 h e) (shl32 (add32 h e) 10) ≠
      add32 (add32 h e') (shl32 (add32 h e') 10) := fun hc =>
    hne (add32_right_injective h e e' he he'
      (mul1025_injective _ _ (add32_inI32 _ _) (add32_inI32 _ _) hc))
  simp only [List.foldl_cons, xorShiftInputs_cons, List.zip_cons_cons, List.mem_cons,
    exists_eq_or_imp]
  by_cases hcompl : add32 (add32 h e') (shl32 (add32 h e') 10) =
      -add32 (add32 h e) (shl32 (add32 h e) 10) - 1
  · have hq : loopBody h e = loopBody h e' :=
      (xorShift_eq_iff _ _ 6 (by decide)).mpr (Or.inr hcompl)
    rw [hq]
    exact ⟨fun _ => Or.inl hcompl, fun _ => rfl⟩
  · have hq : loopBody h e ≠ loopBody h e' := by
      intro hc
      rcases (xorShift_eq_iff _ _ 6 (by decide)).mp hc with hsame | hc2
      · exact hp hsame.symm
      · exact hcompl hc2
    have hi := runs_eq_iff data (loopBody h e) (loopBody h e')
      (xorShift_inI32 _ 6 (add32_inI32 _ _)) (xorShift_inI32 _ 6 (add32_inI32 _ _)) hq
    rw [hi]
    constructor
    · exact fun hx => Or.inr hx
    · rintro (hx | hx)
      · exact absurd hx hcompl
      · exact hx

/-- Two runs from the same accumulator over words that differ in one position
only, after the common words `xs`. -/
theorem runs_differ_in_one_position (xs ys : List Int) (e e' : Int)
    (he : InI32 e) (he' : InI32 e') (hne : e ≠ e') : ∀ h : Int,
    (finish ((xs ++ e :: ys).foldl loopBody h) = finish ((xs ++ e' :: ys).foldl loopBody h) ↔
      ∃ p ∈ List.zip (xorShiftInputs (xs ++ e :: ys) h) (xorShiftInputs (xs ++ e' :: ys) h),
        p.2 = -p.1 - 1) := by
  induction xs with
  | nil =>
    intro h
    exact runs_differ_at_head e e' ys h he he' hne
  | cons x xs ih =>
    intro h
    simp only [List.cons_append, List.foldl_cons, xorShiftInputs_cons, List.zip_cons_cons,
      List.mem_cons, exists_eq_or_imp]
    rw [ih (loopBody h x)]
    constructor
    · exact fun hx => Or.inr hx
    · rintro (hx | hx)
      · exact absurd hx (no_self_complement _)
      · exact hx

/-! ## The hash: value, frame, bounds, determinism -/

/-- C1: for every buffer and every length `n` with `1 ≤ n ≤` the size of the
buffer, `hash(buffer, n)` returns and leaves in `buffer[0]` exactly the value of
the algorithm of the specification on the first `n` words (start at 0, one step
per word in order, then the three finalisation steps); the loop itself computes
the left fold of the step of the specification over the first `n` words. -/
theorem hash_refines_spec (plaintext : List Int) (n : Nat)
    (h1 : 1 ≤ n) (hn : n ≤ plaintext.length) :
    hash plaintext n = .ok (plaintext.set 0 (specHash (plaintext.take n))) ∧
      hashLoop plaintext n 0 0 = .ok ((plaintext.take n).foldl specStep 0) := by
  constructor
  · rw [hash_eq_set plaintext n (by omega) (by omega)]
    simp [specHash, specFinal_eq_finish, foldl_specStep]
  · rw [hashLoop_eq_foldl plaintext n 0 0 (by omega)]
    simp [foldl_specStep]

/-- C1, at the buffer `[1, 2, 3]` with `n = 3`. -/
theorem hash_refines_spec_witness :
    (1 ≤ 3 ∧ 3 ≤ [(1 : Int), 2, 3].length) ∧
      hash [1, 2, 3] (3 : Nat) = .ok ([(1 : Int), 2, 3].set 0 (specHash ([(1 : Int), 2, 3].take 3))) ∧
      hashLoop [1, 2, 3] 3 0 0 = .ok (([(1 : Int), 2, 3].take 3).foldl specStep 0) :=
  ⟨by decide, hash_refines_spec [1, 2, 3] 3 (by decide) (by decide)⟩

/-- C2, as stated, fails: the sequences `[0]` and `[1072694271]` have the same
length 1 and differ in their one position, and `hash` returns the same value 0 on
both. -/
theorem hash_single_word_collision :
    hash [0] 1 = .ok [0] ∧ hash [1072694271] 1 = .ok [0] ∧
      InI32 0 ∧ InI32 1072694271 ∧ (0 : Int) ≠ 1072694271 := by
  decide

/-- C2, amended: for every two sequences of words of the same length `n ≥ 1` that
differ in exactly one position (`xs ++ e :: ys` and `xs ++ e' :: ys`, `e ≠ e'`),
`hash` returns on both, and the two values are different unless at one of the
xor-shift statements (`hash ^= (hash >> 6)` in an iteration, `hash ^= (hash >> 11)`
after the loop) the accumulators of the two runs are bitwise complements of one
another (`h' = ~h = -h - 1`); in that case, and only then, the values are equal. -/
theorem hash_value_sensitive (xs ys : List Int) (e e' : Int)
    (he : InI32 e) (he' : InI32 e') (hne : e ≠ e') :
    ∃ v v' : Int,
      hash (xs ++ e :: ys) (xs ++ e :: ys).length = .ok ((xs ++ e :: ys).set 0 v) ∧
      hash (xs ++ e' :: ys) (xs ++ e' :: ys).length = .ok ((xs ++ e' :: ys).set 0 v') ∧
      (v = v' ↔
        ∃ p ∈ List.zip (xorShiftInputs (xs ++ e :: ys) 0) (xorShiftInputs (xs ++ e' :: ys) 0),
          p.2 = -p.1 - 1) := by
  refine ⟨finish ((xs ++ e :: ys).foldl loopBody 0),
    finish ((xs ++ e' :: ys).foldl loopBody 0), ?_, ?_, ?_⟩
  · have h := hash_eq_set (xs ++ e :: ys) (xs ++ e :: ys).length (by simp) (le_refl _)
    rw [Int.toNat_ofNat, List.take_length] at h
    exact h
  · have h := hash_eq_set (xs ++ e' :: ys) (xs ++ e' :: ys).length (by simp) (le_refl _)
    rw [Int.toNat_ofNat, List.take_length] at h
    exact h
  · exact runs_differ_in_one_position xs ys e e' he he' hne 0

/-- C2 amended, at the sequences `[1, 2, 3]` and `[1, 5, 3]`. -/
theorem hash_value_sensitive_witness :
    ∃ v v' : Int,
      hash ([1] ++ 2 :: [3]) ([(1 : Int)] ++ 2 :: [3]).length =
        .ok (([(1 : Int)] ++ 2 :: [3]).set 0 v) ∧
      hash ([1] ++ 5 :: [3]) ([(1 : Int)] ++ 5 :: [3]).length =
        .ok (([(1 : Int)] ++ 5 :: [3]).set 0 v') ∧
      (v = v' ↔
        ∃ p ∈ List.zip (xorShiftInputs ([1] ++ 2 :: [3]) 0) (xorShiftInputs ([1] ++ 5 :: [3]) 0),
          p.2 = -p.1 - 1) :=
  hash_value_sensitive [1] [3] 2 5 (by decide) (by decide) (by decide)

/-- C3, as stated, fails: with `plaintextLength = 0` the value `hash` leaves in the
buffer is not a non-zero constant, it is 0. -/
theorem hash_empty_not_nonzero :
    ¬ ∃ c : Int, c ≠ 0 ∧ hash [5] 0 = .ok [c] := by
  rintro ⟨c, hc, h⟩
  have h0 : hash [5] 0 = .ok [0] := by decide
  rw [h0] at h
  have hl : [(0 : Int)] = [c] := Except.ok.inj h
  exact hc (List.head_eq_of_cons_eq hl).symm

/-- C3, amended: for the empty input sequence (`plaintextLength = 0`, on a buffer
that has a word to receive the result) `hash` yields a fixed constant, the value
of the three finalisation steps on the accumulator 0, and that constant is 0. -/
theorem hash_empty (plaintext : List Int) (hpos : 0 < plaintext.length) :
    hash plaintext 0 = .ok (plaintext.set 0 (finish 0)) ∧ finish 0 = 0 := by
  constructor
  · rw [hash_eq_set plaintext 0 hpos (by omega)]
    simp
  · decide

/-- C3 amended, at the buffer `[5]`. -/
theorem hash_empty_witness :
    0 < [(5 : Int)].length ∧
      (hash [5] 0 = .ok ([(5 : Int)].set 0 (finish 0)) ∧ finish 0 = 0) :=
  ⟨by decide, hash_empty [5] (by decide)⟩

/-- C4: `hash([1,2,3]) ≠ hash([3,2,1])`: on the two buffers of three words the
function leaves different values in `buffer[0]`. -/
theorem hash_order_sensitive :
    hash [1, 2, 3] 3 = .ok [-114894257, 2, 3] ∧
      hash [3, 2, 1] 3 = .ok [367505560, 2, 1] ∧
      (-114894257 : Int) ≠ 367505560 := by
  decide

/-- C5, as stated, fails: after `hash([1,2,3], 3)` the buffer does not hold the
words it held before, index 0 has been overwritten. -/
theorem hash_modifies_buffer :
    hash [1, 2, 3] 3 = .ok [-114894257, 2, 3] ∧ [(-114894257 : Int), 2, 3] ≠ [1, 2, 3] := by
  decide

/-- C5, amended: the one effect of `hash` is the store of the result into
`plaintext[0]`. Whenever the call returns, the buffer has the size it had, every
word at an index `i ≥ 1` is the word it was, and index 0 holds the hash of the
first `plaintextLength` words; and the call returns for every buffer of at least
one word and every length inside the buffer. -/
theorem hash_frame (plaintext : List Int) (n : Int) :
    (∀ b, hash plaintext n = .ok b →
        b.length = plaintext.length ∧ (∀ i, 1 ≤ i → b[i]? = plaintext[i]?) ∧
          b[0]? = some (specHash (plaintext.take n.toNat))) ∧
      (0 < plaintext.length → n ≤ plaintext.length → ∃ b, hash plaintext n = .ok b) := by
  constructor
  · intro b hb
    obtain ⟨hpos, _, rfl⟩ := hash_ok_inv plaintext n b hb
    refine ⟨by simp, ?_, ?_⟩
    · intro i hi
      rw [List.getElem?_set_ne (by omega)]
    · simp [specHash, specFinal_eq_finish, foldl_specStep, hpos]
  · intro hpos hn
    exact ⟨_, hash_eq_set plaintext n hpos hn⟩

/-- C5 amended, at the buffer `[1, 2, 3]` with length 3. -/
theorem hash_frame_witness :
    ∃ b, hash [1, 2, 3] 3 = .ok b ∧ b[1]? = some 2 ∧ b[2]? = some 3 := by
  obtain ⟨b, hb⟩ := (hash_frame [1, 2, 3] 3).2 (by decide) (by decide)
  have h := (hash_frame [1, 2, 3] 3).1 b hb
  exact ⟨b, hb, by rw [h.2.1 1 (by decide)]; rfl, by rw [h.2.1 2 (by decide)]; rfl⟩

/-- C6, as stated, fails: on the empty buffer with `plaintextLength = 0` the store
`plaintext[0] = hash` of line 16 is outside of the buffer. -/
theorem hash_empty_buffer_outOfBounds :
    hash [] 0 = .error HashError.outOfBounds := by
  decide

/-- C6, amended: for every buffer of `k ≥ 1` words and `plaintextLength = k`, every
access of `hash` is inside the buffer: the call returns, the out-of-bounds error
is not reached. -/
theorem hash_in_bounds (plaintext : List Int) (hk : 1 ≤ plaintext.length) :
    hash plaintext plaintext.length ≠ .error HashError.outOfBounds ∧
      ∃ b, hash plaintext plaintext.length = .ok b := by
  have h := hash_eq_set plaintext plaintext.length (by omega) (le_refl _)
  exact ⟨by rw [h]; simp, _, h⟩

/-- C6 amended, at the buffer `[7]`. -/
theorem hash_in_bounds_witness :
    1 ≤ [(7 : Int)].length ∧
      (hash [7] ([(7 : Int)].length) ≠ .error HashError.outOfBounds ∧
        ∃ b, hash [7] ([(7 : Int)].length) = .ok b) :=
  ⟨by decide, hash_in_bounds [7] (by decide)⟩

/-- C7: for every length `n` and every two buffers that both have `n` first words
and agree on them, the calls `hash(buffer1, n)` and `hash(buffer2, n)` produce the
same value, whatever the buffers hold from index `n` on: whenever both calls
return, the values left in index 0 are equal, and both calls do return, with one
and the same value, as soon as each buffer has a word to receive it. -/
theorem hash_deterministic (plaintext1 plaintext2 : List Int) (n : Int)
    (h1 : n ≤ plaintext1.length) (h2 : n ≤ plaintext2.length)
    (heq : plaintext1.take n.toNat = plaintext2.take n.toNat) :
    (∀ b1 b2, hash plaintext1 n = .ok b1 → hash plaintext2 n = .ok b2 → b1[0]? = b2[0]?) ∧
      (0 < plaintext1.length → 0 < plaintext2.length →
        ∃ v, hash plaintext1 n = .ok (plaintext1.set 0 v) ∧
          hash plaintext2 n = .ok (plaintext2.set 0 v)) := by
  constructor
  · intro b1 b2 hb1 hb2
    obtain ⟨hp1, _, rfl⟩ := hash_ok_inv plaintext1 n b1 hb1
    obtain ⟨hp2, _, rfl⟩ := hash_ok_inv plaintext2 n b2 hb2
    simp [heq, hp1, hp2]
  · intro hp1 hp2
    refine ⟨finish ((plaintext1.take n.toNat).foldl loopBody 0),
      hash_eq_set plaintext1 n hp1 h1, ?_⟩
    rw [heq]
    exact hash_eq_set plaintext2 n hp2 h2

/-- C7, at the buffers `[1, 2, 9]` and `[1, 2, 4, 4]` with `n = 2`. -/
theorem hash_deterministic_witness :
    ∃ v, hash [1, 2, 9] 2 = .ok [v, 2, 9] ∧ hash [1, 2, 4, 4] 2 = .ok [v, 2, 4, 4] :=
  (hash_deterministic [1, 2, 9] [1, 2, 4, 4] 2 (by decide) (by decide) (by decide)).2
    (by decide) (by decide)

/-! ## The tile worker -/

theorem afterMessages_eq (k : Nat) (w : TileWorker) :
    TileWorker.afterMessages k w = .ok w := by
  induction k with
  | zero => rfl
  | succ k ih =>
    rw [TileWorker.afterMessages]
    exact ih

/-- C9: a freshly constructed `TileWorker` has the status `Ready`, it still has it
after any number of messages, and the status of a worker is at all times exactly
one of the three values `Ready`, `Building`, `Busy`. -/
theorem tileWorker_status :
    TileWorker.new.status = Status.Ready ∧
      (∀ k, ∃ w, TileWorker.afterMessages k TileWorker.new = .ok w ∧
        w.status = Status.Ready) ∧
      (∀ w : TileWorker,
        (w.status = Status.Ready ∧ w.status ≠ Status.Building ∧ w.status ≠ Status.Busy) ∨
        (w.status = Status.Building ∧ w.status ≠ Status.Ready ∧ w.status ≠ Status.Busy) ∨
        (w.status = Status.Busy ∧ w.status ≠ Status.Ready ∧ w.status ≠ Status.Building)) := by
  refine ⟨rfl, fun k => ⟨TileWorker.new, afterMessages_eq k _, rfl⟩, ?_⟩
  intro w
  cases w.status <;> simp

/-! ## The fetch -/

/-- C10: for every path and every extension (and whatever the initialisation of
the attributes leaves), `requestData` issues one fetch, of `path`, with the request
method `"GET"`, the attributes exactly `EMSCRIPTEN_FETCH_LOAD_TO_MEMORY`, the
success callback `downloadSucceeded` and the failure callback `downloadFailed`;
and each of the two callbacks closes the fetch it is given, once, and does
nothing else. -/
theorem requestData_fixed_get (attrInit : FetchAttr) (EMSCRIPTEN_FETCH_LOAD_TO_MEMORY : Nat)
    (path extension : String) :
    (∃ attr, requestData attrInit EMSCRIPTEN_FETCH_LOAD_TO_MEMORY path extension =
          [FetchCall.fetch attr path] ∧
        attr.requestMethod = "GET" ∧
        attr.attributes = EMSCRIPTEN_FETCH_LOAD_TO_MEMORY ∧
        attr.onsuccess = some FetchCallback.downloadSucceeded ∧
        attr.onerror = some FetchCallback.downloadFailed) ∧
      ∀ fetch : Nat,
        downloadSucceeded fetch = [FetchCall.close fetch] ∧
        downloadFailed fetch = [FetchCall.close fetch] ∧
        (FetchCallback.downloadSucceeded.run fetch).count (FetchCall.close fetch) = 1 ∧
        (FetchCallback.downloadFailed.run fetch).count (FetchCall.close fetch) = 1 := by
  refine ⟨⟨_, rfl, rfl, rfl, rfl, rfl⟩, ?_⟩
  intro fetch
  simp [FetchCallback.run, downloadSucceeded, downloadFailed]

end S2Maps
